import Mathlib

/-!
# Pajk/go-http-proxy: the URL resolution and forwarding pipeline of `main.go`

A shallow embedding of `src/main.go`.

* A Go `string` is a finite sequence of bytes.  It is embedded as `List Char`, one `Char` per
  byte; every string operation the program uses (`+`, `==`, `strings.Split`, `strings.Contains`,
  `strings.Replace`, `strings.TrimPrefix`) is an operation on sequences that never looks inside
  an element, so the element type plays no role.
* The functions of the Go standard library that the program calls are either embedded from their
  documented behaviour (package `strings`, `http.Header.Set`, `http.Error`, a recording
  `http.ResponseWriter`) or, where they depend on the outside world or on large tables
  (`url.Parse`, the method check of `http.NewRequest`, `textproto.CanonicalMIMEHeaderKey`,
  `http.Client.Do`, the decoded `PATH_MAPPING` variable), taken as fields of `Env`.
* A run-time panic is an explicit way for the handler to end (`Exit.panicked`).
-/

set_option autoImplicit false

namespace GoHttpProxy

/-- A Go string: a sequence of bytes, one `Char` per byte. -/
abbrev GoString := List Char

/-! ## Package `strings` -/

namespace strings

/-- The Go function `strings.HasPrefix(s, prefix)`. -/
def HasPrefix (s pre : GoString) : Bool := pre.isPrefixOf s

/-- The Go function `strings.Index(s, substr)`: the index of the first instance of `substr` in `s`;
`none` stands for the result `-1`. -/
def Index : GoString → GoString → Option Nat
  | [], substr => if substr = [] then some 0 else none
  | c :: t, substr =>
    if HasPrefix (c :: t) substr then some 0 else (Index t substr).map (· + 1)

/-- The Go function `strings.Contains(s, substr)`, which is `Index(s, substr) >= 0`. -/
def Contains (s substr : GoString) : Bool := (Index s substr).isSome

/-- The Go function `strings.TrimPrefix(s, prefix)`. -/
def TrimPrefix (s pre : GoString) : GoString :=
  if HasPrefix s pre then s.drop pre.length else s

/-- The replacement loop of `strings.Replace` for a non-empty `old`: at most `n` times, copy the
text before the next instance of `old`, write `new`, and continue after that instance. -/
def replaceLoop (old new : GoString) : Nat → GoString → GoString
  | 0, s => s
  | n + 1, s =>
    match Index s old with
    | none => s
    | some j => s.take j ++ new ++ replaceLoop old new n (s.drop (j + old.length))

/-- The Go function `strings.Replace(s, old, new, n)` for `n ≥ 0` and a non-empty `old` (the
program calls it with `old = urlPathPrefix + "/"` and `n = 1`). -/
def Replace (s old new : GoString) (n : Nat) : GoString :=
  if old = new ∨ n = 0 then s else replaceLoop old new n s

/-- The loop of `strings.Split` (`genSplit` with `sepSave = 0`) for a non-empty separator: cut at
each instance of `sep`; the last element is what remains. -/
def splitLoop (sep : GoString) : Nat → GoString → List GoString
  | 0, s => [s]
  | fuel + 1, s =>
    match Index s sep with
    | none => [s]
    | some m => s.take m :: splitLoop sep fuel (s.drop (m + sep.length))

/-- The Go function `strings.Split(s, sep)` for a non-empty `sep` (the program calls it with
`sep = "/"`).  Go bounds the loop by `Count(s, sep)`; every round consumes an instance of `sep`,
so `len(s)` rounds are never exhausted before `Index` fails and the bound `s.length` gives the
same slice. -/
def Split (s sep : GoString) : List GoString := splitLoop sep s.length s

end strings

/-! ## The pure functions of `main.go` -/

/-- `GetURLPathPrefix` (lines 41–48): the first element of `strings.Split(requestedURL, "/")`,
and `""` should the slice be empty. -/
def GetURLPathPrefix (requestedURL : GoString) : GoString :=
  match strings.Split requestedURL ['/'] with
  | urlPart :: _ => urlPart
  | [] => []

/-- `NormalizeURL` (lines 50–56). -/
def NormalizeURL (rawURL : GoString) : GoString :=
  if !strings.Contains rawURL "http".toList then "http://".toList ++ rawURL else rawURL

/-! ## Package `net/http` and the outside world -/

/-- The Go type `http.Header`, a `map[string][]string`.  The entries are listed in the order in
which a `range` loop visits them (an order Go leaves unspecified); a key is looked up with
`List.lookup`. -/
abbrev Header := List (GoString × List GoString)

/-- The method `http.Header.Set(key, value)`: `h[CanonicalMIMEHeaderKey(key)] = []string{value}`. -/
def Header.Set (canonicalKey : GoString → GoString) (h : Header) (key value : GoString) :
    Header :=
  (canonicalKey key, [value]) :: h.filter (fun e => e.1 != canonicalKey key)

/-- What the program reads of a `url.URL`: the fields `Path` and `Host` and the result of the
method `String()`. -/
structure URL where
  Path : GoString
  Host : GoString
  String : GoString
  deriving DecidableEq

/-- What the handler reads of the inbound `*http.Request`. -/
structure Request where
  Method : GoString
  URL : URL
  Header : Header
  Body : GoString
  deriving DecidableEq

/-- The outbound `*http.Request` that the handler builds. -/
structure OutRequest where
  Method : GoString
  URL : GoString
  Header : Header
  Body : GoString
  deriving DecidableEq

/-- What the handler reads of the backend's `*http.Response`. -/
structure Response where
  StatusCode : Nat
  Header : Header
  Body : GoString
  deriving DecidableEq

/-- The collaborators of the handler that live outside `main.go`. -/
structure Env where
  /-- The map that `json.Unmarshal` decodes from the environment variable `PATH_MAPPING`; the
  nil map (no entry) when the variable is unset or malformed. -/
  PATH_MAPPING : List (GoString × GoString)
  /-- The function `url.Parse`; `none` stands for a non-nil error. -/
  urlParse : GoString → Option URL
  /-- The method check of `http.NewRequest` (`validMethod`). -/
  validMethod : GoString → Bool
  /-- The function `textproto.CanonicalMIMEHeaderKey`. -/
  canonicalKey : GoString → GoString
  /-- The method `http.Client.Do`: the backend's response, or the text of the transport error. -/
  clientDo : OutRequest → Except GoString Response

/-- A recording `http.ResponseWriter`: the header map, the status code once written, and the
body bytes written so far. -/
structure ResponseWriter where
  header : Header
  status : Option Nat
  body : GoString
  deriving DecidableEq

/-- The method `ResponseWriter.WriteHeader(code)`: the first status code written stands. -/
def ResponseWriter.WriteHeader (w : ResponseWriter) (code : Nat) : ResponseWriter :=
  match w.status with
  | some _ => w
  | none => { w with status := some code }

/-- The method `ResponseWriter.Write(data)`: an implicit `WriteHeader(200)` when no status has
been written, then the data. -/
def ResponseWriter.Write (w : ResponseWriter) (data : GoString) : ResponseWriter :=
  { w.WriteHeader 200 with body := w.body ++ data }

/-- The function `http.Error(w, error, code)`: a plain-text content type, the status code, and
the message followed by a newline. -/
def httpError (env : Env) (w : ResponseWriter) (error : GoString) (code : Nat) :
    ResponseWriter :=
  let h := Header.Set env.canonicalKey w.header "Content-Type".toList
    "text/plain; charset=utf-8".toList
  let h := Header.Set env.canonicalKey h "X-Content-Type-Options".toList "nosniff".toList
  ({ w with header := h }.WriteHeader code).Write (error ++ ['\n'])

/-- The function `http.NewRequest(method, url, body)`: an empty method means `GET`; the request
is nil (`none`) when the method is not valid or the URL does not parse; its header map starts
empty. -/
def NewRequest (env : Env) (method url body : GoString) : Option OutRequest :=
  let method := if method = [] then "GET".toList else method
  if !env.validMethod method then none
  else
    match env.urlParse url with
    | none => none
    | some _ => some { Method := method, URL := url, Header := [], Body := body }

/-- The calls the handler makes on its collaborators other than the response writer, in the
order in which they happen. -/
inductive Call where
  /-- Line 116, `log.Printf("%v %v", r.Method, requestedURL)`. -/
  | logPrintf (method requestedURL : GoString)
  /-- Line 117, `http.NewRequest(r.Method, requestedURL, r.Body)`. -/
  | newRequest (method requestedURL : GoString)
  /-- Line 121, `client.Do(req)`, with `none` for a nil `req`. -/
  | clientDo (req : Option OutRequest)
  /-- Line 136, `PrintHTTP(r, resp)`. -/
  | printHTTP
  /-- The deferred `resp.Body.Close()` of line 134. -/
  | closeResponseBody
  /-- The deferred `r.Body.Close()` of line 122. -/
  | closeRequestBody
  deriving DecidableEq

/-- How a run of the handler ends: it returns, or a run-time panic unwinds it. -/
inductive Exit where
  | returned
  | panicked
  deriving DecidableEq

/-- A complete run of the handler: the final state of the response writer, the calls made, and
the way the run ended. -/
structure Run where
  wr : ResponseWriter
  calls : List Call
  exit : Exit
  deriving DecidableEq

/-! ## The handler -/

/-- `GetPathMapping` (lines 32–39): the decoded `PATH_MAPPING` variable. -/
def GetPathMapping (env : Env) : List (GoString × GoString) := env.PATH_MAPPING

/-- `IsValidURL` (lines 58–68). -/
def IsValidURL (env : Env) (rawURL : GoString) : Bool :=
  match env.urlParse rawURL with
  | none => false
  | some parsedURL =>
    if !strings.Contains parsedURL.Host ['.'] then false else true

/-- The loops of lines 118–120 and 129–131: for every entry of `src`, in iteration order,
`dst.Set(name, value[0])`.  The flag is `false` when `value[0]` indexes an empty slice, which
panics; the header map is then as the loop left it. -/
def copyFirstValues (canonicalKey : GoString → GoString) : Header → Header → Header × Bool
  | [], dst => (dst, true)
  | (_, []) :: _, dst => (dst, false)
  | (name, v :: _) :: rest, dst =>
    copyFirstValues canonicalKey rest (Header.Set canonicalKey dst name v)

/-- Lines 89–108 of `ServeHTTP`: the value of `requestedURL` that reaches `IsValidURL`.  The
result is `none` when the branch of lines 99–102 is taken: there `err` is still the nil `error`
of line 80, so evaluating the argument `err.Error()` of line 100 panics before `http.Error` is
entered. -/
def requestedTarget (env : Env) (r : Request) : Option GoString :=
  let requestedURL := strings.TrimPrefix r.URL.String ['/']
  let urlPathPrefix := GetURLPathPrefix requestedURL
  let pathMapping := GetPathMapping env
  match pathMapping.lookup urlPathPrefix with
  | some host =>
    let requestedURL := strings.Replace requestedURL (urlPathPrefix ++ ['/']) [] 1
    if urlPathPrefix = requestedURL then none
    else some (NormalizeURL (host ++ ['/'] ++ requestedURL))
  | none => some (NormalizeURL requestedURL)

/-- Lines 110–137 of `ServeHTTP`: validation of the target, the outbound request, and the relay
of the backend's response. -/
def forward (env : Env) (wr : ResponseWriter) (r : Request) (requestedURL : GoString) : Run :=
  if !IsValidURL env requestedURL then
    ⟨httpError env wr "Invalid URL".toList 404, [], Exit.returned⟩
  else
    let calls := [Call.logPrintf r.Method requestedURL, Call.newRequest r.Method requestedURL]
    match NewRequest env r.Method requestedURL r.Body with
    | none =>
      -- `req` is nil: line 119 dereferences it, or with no header to copy `client.Do` does
      if r.Header = [] then ⟨wr, calls ++ [Call.clientDo none], Exit.panicked⟩
      else ⟨wr, calls, Exit.panicked⟩
    | some req =>
      match copyFirstValues env.canonicalKey r.Header req.Header with
      | (_, false) => ⟨wr, calls, Exit.panicked⟩
      | (header, true) =>
        let req := { req with Header := header }
        let calls := calls ++ [Call.clientDo (some req)]
        match env.clientDo req with
        | Except.error err =>
          ⟨httpError env wr err 500, calls ++ [Call.closeRequestBody], Exit.returned⟩
        | Except.ok resp =>
          match copyFirstValues env.canonicalKey resp.Header wr.header with
          | (header, false) =>
            ⟨{ wr with header := header }, calls ++ [Call.closeRequestBody], Exit.panicked⟩
          | (header, true) =>
            let wr := ({ wr with header := header }.WriteHeader resp.StatusCode).Write resp.Body
            ⟨wr, calls ++ [Call.printHTTP, Call.closeResponseBody, Call.closeRequestBody],
              Exit.returned⟩

/-- The type `Proxy` (lines 70–72), a struct without fields. -/
structure Proxy where
  deriving DecidableEq

/-- `NewProxy` (line 75). -/
def NewProxy : Proxy := {}

/-- `Proxy.ServeHTTP` (lines 77–137). -/
def Proxy.ServeHTTP (_p : Proxy) (env : Env) (wr : ResponseWriter) (r : Request) : Run :=
  if r.URL.Path = ['/'] then ⟨wr, [], Exit.returned⟩
  else
    match requestedTarget env r with
    | none => ⟨wr, [], Exit.panicked⟩
    | some requestedURL => forward env wr r requestedURL

/-! ## Concrete collaborators, for evaluating the handler on explicit requests -/

/-- A stand-in for `url.Parse` on strings of the shape `http://host[/...]`, where the host has no
`/`: such a string parses with the text between the scheme and the next `/` as its host.  Any
other string is taken to parse with an empty host, as a relative reference does. -/
def sampleParse (rawURL : GoString) : Option URL :=
  if strings.HasPrefix rawURL "http://".toList then
    let rest := rawURL.drop 7
    some { Path := rest.dropWhile (· != '/'), Host := rest.takeWhile (· != '/'),
           String := rawURL }
  else some { Path := rawURL, Host := [], String := rawURL }

/-- An environment with the given mapping table, header names left as they are, every method
valid, and a backend that answers every request with the given response. -/
def sampleEnvWith (mapping : List (GoString × GoString)) (resp : Response) : Env where
  PATH_MAPPING := mapping
  urlParse := sampleParse
  validMethod := fun _ => true
  canonicalKey := id
  clientDo := fun _ => Except.ok resp

/-- The environment `sampleEnvWith` with a backend that answers with an empty `200`. -/
def sampleEnv (mapping : List (GoString × GoString)) : Env :=
  sampleEnvWith mapping { StatusCode := 200, Header := [], Body := [] }

/-- A backend response with two `Set-Cookie` values and one `Content-Type` value. -/
def sampleResponse : Response where
  StatusCode := 200
  Header := [("Set-Cookie".toList, ["a=1".toList, "b=2".toList]),
             ("Content-Type".toList, ["text/plain".toList])]
  Body := "ok".toList

/-- An inbound `GET /api/users/1` with two `Accept` values and one `X-Id` value. -/
def sampleRequest : Request where
  Method := "GET".toList
  URL := { Path := "/api/users/1".toList, Host := [], String := "/api/users/1".toList }
  Header := [("Accept".toList, ["text/html".toList, "text/plain".toList]),
             ("X-Id".toList, ["7".toList])]
  Body := []

/-- A response writer on which nothing has been written. -/
def freshWriter : ResponseWriter := { header := [], status := none, body := [] }

/-- An inbound `GET` request without headers or body for the given path, which is also what
`r.URL.String()` returns for it. -/
def getRequest (path : String) : Request where
  Method := "GET".toList
  URL := { Path := path.toList, Host := [], String := path.toList }
  Header := []
  Body := []

/-! ## Facts about package `strings` -/

namespace strings

theorem HasPrefix_append (p s : GoString) : HasPrefix (p ++ s) p = true := by
  simp [HasPrefix]

theorem Index_append_self (p s : GoString) : Index (p ++ s) p = some 0 := by
  cases hps : p ++ s with
  | nil =>
    have hp : p = [] := (List.append_eq_nil.mp hps).1
    simp [Index, hp]
  | cons c t =>
    have h := HasPrefix_append p s
    rw [hps] at h
    simp [Index, h]

theorem Contains_iff (s sub : GoString) :
    Contains s sub = true ↔ ∃ a b, s = a ++ sub ++ b := by
  induction s with
  | nil =>
    constructor
    · intro h
      by_cases hs : sub = []
      · exact ⟨[], [], by simp [hs]⟩
      · simp [Contains, Index, hs] at h
    · rintro ⟨a, b, h⟩
      have hs : sub = [] := by
        have := congrArg List.length h
        simp at this
        exact List.length_eq_zero.mp (by omega)
      simp [Contains, Index, hs]
  | cons c t ih =>
    constructor
    · intro h
      by_cases hp : HasPrefix (c :: t) sub = true
      · have hp2 : sub <+: c :: t := by simpa [HasPrefix] using hp
        obtain ⟨b, hb⟩ := hp2
        exact ⟨[], b, by simp [hb]⟩
      · have h2 : Contains t sub = true := by
          simp only [Contains, Index, hp] at h
          simpa [Contains] using h
        obtain ⟨a, b, hab⟩ := ih.mp h2
        exact ⟨c :: a, b, by simp [hab]⟩
    · rintro ⟨a, b, h⟩
      by_cases hp : HasPrefix (c :: t) sub = true
      · simp [Contains, Index, hp]
      · cases a with
        | nil =>
          exfalso
          apply hp
          rw [h]
          simpa using HasPrefix_append sub b
        | cons a0 a1 =>
          have ht : t = a1 ++ sub ++ b := by
            simp at h
            simpa using h.2
          have h2 := ih.mpr ⟨a1, b, ht⟩
          simp only [Contains, Index, hp]
          simpa [Contains] using h2

theorem Index_none_of_not_Contains (s sub : GoString) (h : Contains s sub = false) :
    Index s sub = none := by
  simpa [Contains] using h

/-- The first element that `Split` cuts off at a one-byte separator. -/
theorem Index_single (c : Char) (s : GoString) :
    (match Index s [c] with
      | none => s
      | some m => s.take m) = s.takeWhile (· != c) := by
  induction s with
  | nil => simp [Index]
  | cons d t ih =>
    by_cases hd : d = c
    · subst hd
      simp [Index, HasPrefix]
    · have hp : HasPrefix (d :: t) [c] = false := by
        simp [HasPrefix, List.isPrefixOf, Ne.symm hd]
      simp only [Index, hp]
      cases hi : Index t [c] with
      | none =>
        rw [hi] at ih
        simp [hd, ← ih]
      | some m =>
        rw [hi] at ih
        simp [hd, ← ih]

theorem splitLoop_head (c : Char) (fuel : Nat) (s : GoString) (h : s.length ≤ fuel) :
    (splitLoop [c] fuel s).head? = some (s.takeWhile (· != c)) := by
  cases fuel with
  | zero =>
    have hs : s = [] := List.length_eq_zero.mp (by omega)
    simp [splitLoop, hs]
  | succ n =>
    have h1 := Index_single c s
    simp only [splitLoop]
    cases hi : Index s [c] with
    | none =>
      rw [hi] at h1
      simpa using h1
    | some m =>
      rw [hi] at h1
      simpa using h1

/-- The loop of `Split` never runs out of rounds: every bound of at least `s.length` gives the
same slice. -/
theorem splitLoop_fuel (sep : GoString) (hsep : sep ≠ []) (fuel₁ fuel₂ : Nat) (s : GoString)
    (h₁ : s.length ≤ fuel₁) (h₂ : s.length ≤ fuel₂) :
    splitLoop sep fuel₁ s = splitLoop sep fuel₂ s := by
  induction fuel₁ generalizing fuel₂ s with
  | zero =>
    have hs : s = [] := List.length_eq_zero.mp (by omega)
    subst hs
    cases fuel₂ with
    | zero => rfl
    | succ n => simp [splitLoop, Index, hsep]
  | succ n ih =>
    cases fuel₂ with
    | zero =>
      have hs : s = [] := List.length_eq_zero.mp (by omega)
      subst hs
      simp [splitLoop, Index, hsep]
    | succ m =>
      simp only [splitLoop]
      cases hi : Index s sep with
      | none => rfl
      | some j =>
        have hpos : 0 < s.length := by
          cases s with
          | nil => simp [Index, hsep] at hi
          | cons c t => simp
        have hlen : 0 < sep.length := List.length_pos.mpr hsep
        have hdrop : (s.drop (j + sep.length)).length < s.length := by
          rw [List.length_drop]
          omega
        simp only
        rw [ih m (s.drop (j + sep.length)) (by omega) (by omega)]

theorem Replace_first (old s : GoString) (h : old ≠ []) :
    Replace (old ++ s) old [] 1 = s := by
  simp [Replace, h, replaceLoop, Index_append_self]

theorem Replace_absent (s old new : GoString) (n : Nat) (h : Contains s old = false) :
    Replace s old new n = s := by
  unfold Replace
  split
  · rfl
  · cases n with
    | zero => rfl
    | succ m => simp [replaceLoop, Index_none_of_not_Contains s old h]

theorem not_Contains_of_length_lt (s sub : GoString) (h : s.length < sub.length) :
    Contains s sub = false := by
  cases hc : Contains s sub with
  | false => rfl
  | true =>
    obtain ⟨a, b, hab⟩ := (Contains_iff s sub).mp hc
    have := congrArg List.length hab
    simp at this
    omega

theorem TrimPrefix_cons (c : Char) (s : GoString) : TrimPrefix (c :: s) [c] = s := by
  simp [TrimPrefix, HasPrefix]

end strings

/-! ## Facts about the pure functions -/

theorem GetURLPathPrefix_eq_takeWhile (p : GoString) :
    GetURLPathPrefix p = p.takeWhile (· != '/') := by
  have h := strings.splitLoop_head '/' p.length p (Nat.le_refl _)
  unfold GetURLPathPrefix strings.Split
  cases hs : strings.splitLoop ['/'] p.length p with
  | nil => rw [hs] at h; simp at h
  | cons a t => rw [hs] at h; simpa using h

theorem takeWhile_ne_of_not_mem (c : Char) (p : GoString) (h : c ∉ p) :
    p.takeWhile (· != c) = p := by
  induction p with
  | nil => rfl
  | cons d t ih =>
    have hd : d ≠ c := fun e => h (by simp [e])
    have ht : c ∉ t := fun e => h (by simp [e])
    simp [hd, ih ht]

theorem takeWhile_ne_append (c : Char) (p rest : GoString) (h : c ∉ p) :
    (p ++ c :: rest).takeWhile (· != c) = p := by
  induction p with
  | nil => simp
  | cons d t ih =>
    have hd : d ≠ c := fun e => h (by simp [e])
    have ht : c ∉ t := fun e => h (by simp [e])
    simp [hd, ih ht]

theorem not_mem_takeWhile_ne (c : Char) (p : GoString) : c ∉ p.takeWhile (· != c) := by
  intro h
  have := List.mem_takeWhile_imp h
  simp at this

theorem Contains_single_iff (c : Char) (s : GoString) :
    strings.Contains s [c] = true ↔ c ∈ s := by
  rw [strings.Contains_iff]
  constructor
  · rintro ⟨a, b, h⟩
    simp [h]
  · intro h
    obtain ⟨a, b, hab⟩ := List.append_of_mem h
    exact ⟨a, b, by simp [hab]⟩

theorem Contains_iff_isInfix (s sub : GoString) :
    strings.Contains s sub = true ↔ sub <:+: s := by
  rw [strings.Contains_iff]
  constructor
  · rintro ⟨a, b, h⟩
    exact ⟨a, b, h.symm⟩
  · rintro ⟨a, b, h⟩
    exact ⟨a, b, h.symm⟩

theorem NormalizeURL_of_Contains (x : GoString)
    (h : strings.Contains x "http".toList = true) : NormalizeURL x = x := by
  unfold NormalizeURL
  rw [h]
  rfl

theorem NormalizeURL_of_not_Contains (x : GoString)
    (h : strings.Contains x "http".toList = false) :
    NormalizeURL x = "http://".toList ++ x := by
  unfold NormalizeURL
  rw [h]
  rfl

theorem Contains_http_scheme (x : GoString) :
    strings.Contains ("http://".toList ++ x) "http".toList = true := by
  rw [strings.Contains_iff]
  exact ⟨[], "://".toList ++ x, by simp⟩

/-! ## Facts about the rewriting of lines 89–108 -/

/-- A request for `/k/s` with `k` mapped to `host`: the prefix is stripped; the branch of lines
99–102 is taken exactly when the suffix equals the prefix. -/
theorem requestedTarget_mapped (env : Env) (r : Request) (k host s : GoString)
    (hk : '/' ∉ k) (hmap : (GetPathMapping env).lookup k = some host)
    (hurl : r.URL.String = '/' :: (k ++ '/' :: s)) :
    requestedTarget env r =
      if k = s then none else some (NormalizeURL (host ++ ['/'] ++ s)) := by
  have hpre : GetURLPathPrefix (k ++ '/' :: s) = k := by
    rw [GetURLPathPrefix_eq_takeWhile, takeWhile_ne_append '/' k s hk]
  have hrep : strings.Replace (k ++ '/' :: s) (k ++ ['/']) [] 1 = s := by
    have h := strings.Replace_first (k ++ ['/']) s (by simp)
    simpa using h
  simp only [requestedTarget, hurl, strings.TrimPrefix_cons, hpre, hmap, hrep]

/-- A request for the bare prefix `/k` with `k` mapped: the branch of lines 99–102 is taken. -/
theorem requestedTarget_bare (env : Env) (r : Request) (k host : GoString)
    (hk : '/' ∉ k) (hmap : (GetPathMapping env).lookup k = some host)
    (hurl : r.URL.String = '/' :: k) :
    requestedTarget env r = none := by
  have hpre : GetURLPathPrefix k = k := by
    rw [GetURLPathPrefix_eq_takeWhile, takeWhile_ne_of_not_mem '/' k hk]
  have hrep : strings.Replace k (k ++ ['/']) [] 1 = k :=
    strings.Replace_absent k _ _ _ (strings.not_Contains_of_length_lt k _ (by simp))
  simp only [requestedTarget, hurl, strings.TrimPrefix_cons, hpre, hmap, hrep]
  simp

/-- Every call on a collaborator happens after the target passed validation. -/
theorem calls_only_after_validation (p : Proxy) (env : Env) (wr : ResponseWriter) (r : Request)
    (h : (p.ServeHTTP env wr r).calls ≠ []) :
    r.URL.Path ≠ ['/'] ∧
      ∃ t, requestedTarget env r = some t ∧ IsValidURL env t = true ∧
        p.ServeHTTP env wr r = forward env wr r t := by
  unfold Proxy.ServeHTTP at h ⊢
  by_cases hp : r.URL.Path = ['/']
  · simp [hp] at h
  · refine ⟨hp, ?_⟩
    cases ht : requestedTarget env r with
    | none => simp [hp, ht] at h
    | some t =>
      refine ⟨t, rfl, ?_, by simp [hp]⟩
      cases hv : IsValidURL env t with
      | true => rfl
      | false => simp [hp, ht, forward, hv] at h

/-! ## Facts about header maps -/

theorem lookup_filter_ne (k name : GoString) (h : Header) (hne : name ≠ k) :
    (h.filter (fun e => e.1 != k)).lookup name = h.lookup name := by
  induction h with
  | nil => rfl
  | cons e t ih =>
    obtain ⟨k0, v0⟩ := e
    by_cases h0 : k0 = k
    · subst h0
      have : (name == k0) = false := by simpa using hne
      simp [List.filter_cons, List.lookup_cons, this, ih]
    · by_cases h1 : name = k0
      · subst h1
        simp [List.filter_cons, List.lookup_cons, h0]
      · have : (name == k0) = false := by simpa using h1
        simp [List.filter_cons, List.lookup_cons, h0, this, ih]

theorem lookup_Set (canonicalKey : GoString → GoString) (h : Header)
    (key value name : GoString) :
    (Header.Set canonicalKey h key value).lookup name =
      if name = canonicalKey key then some [value] else h.lookup name := by
  unfold Header.Set
  by_cases hn : name = canonicalKey key
  · simp [hn]
  · have : (name == canonicalKey key) = false := by simpa using hn
    simp [List.lookup_cons, this, hn, lookup_filter_ne _ _ _ hn]

theorem copyFirstValues_completes (canonicalKey : GoString → GoString) (src dst : Header)
    (hne : ∀ e ∈ src, e.2 ≠ []) : (copyFirstValues canonicalKey src dst).2 = true := by
  induction src generalizing dst with
  | nil => rfl
  | cons e t ih =>
    obtain ⟨name, value⟩ := e
    cases value with
    | nil => exact absurd rfl (hne (name, []) (by simp))
    | cons v vs =>
      simp only [copyFirstValues]
      exact ih _ (fun e he => hne e (by simp [he]))

theorem copyFirstValues_other (canonicalKey : GoString → GoString) (src dst : Header)
    (name : GoString) (hname : ∀ e ∈ src, canonicalKey e.1 ≠ name) :
    (copyFirstValues canonicalKey src dst).1.lookup name = dst.lookup name := by
  induction src generalizing dst with
  | nil => rfl
  | cons e t ih =>
    obtain ⟨k, value⟩ := e
    cases value with
    | nil => rfl
    | cons v vs =>
      simp only [copyFirstValues]
      rw [ih _ (fun e he => hname e (by simp [he])), lookup_Set]
      have : name ≠ canonicalKey k := fun h => hname (k, v :: vs) (by simp) h.symm
      simp [this]

theorem copyFirstValues_first (canonicalKey : GoString → GoString) (src dst : Header)
    (hkeys : (src.map Prod.fst).Nodup) (hcanon : ∀ e ∈ src, canonicalKey e.1 = e.1)
    (hne : ∀ e ∈ src, e.2 ≠ []) (name v : GoString) (vs : List GoString)
    (hmem : (name, v :: vs) ∈ src) :
    (copyFirstValues canonicalKey src dst).1.lookup name = some [v] := by
  induction src generalizing dst with
  | nil => simp at hmem
  | cons e t ih =>
    obtain ⟨k, value⟩ := e
    have hnd : k ∉ t.map Prod.fst ∧ (t.map Prod.fst).Nodup := by simpa using hkeys
    cases value with
    | nil => exact absurd rfl (hne (k, []) (by simp))
    | cons v0 vs0 =>
      simp only [copyFirstValues]
      rcases List.mem_cons.mp hmem with heq | hin
      · have h1 : name = k := (Prod.mk.inj heq).1
        have h2 : v = v0 := (List.cons.inj (Prod.mk.inj heq).2).1
        subst h1 h2
        rw [copyFirstValues_other, lookup_Set]
        · simp [hcanon (name, v :: vs0) (by simp)]
        · intro e he hc
          rw [hcanon e (by simp [he])] at hc
          exact hnd.1 (List.mem_map.mpr ⟨e, he, hc⟩)
      · exact ih _ hnd.2 (fun e he => hcanon e (by simp [he]))
          (fun e he => hne e (by simp [he])) hin

/-! ## Facts about the forwarding of lines 110–137 -/

@[simp] theorem WriteHeader_header (w : ResponseWriter) (code : Nat) :
    (w.WriteHeader code).header = w.header := by
  unfold ResponseWriter.WriteHeader
  split <;> rfl

@[simp] theorem Write_header (w : ResponseWriter) (data : GoString) :
    (w.Write data).header = w.header := by
  simp [ResponseWriter.Write]

theorem httpError_status (env : Env) (w : ResponseWriter) (error : GoString) (code : Nat)
    (h : w.status = none) : (httpError env w error code).status = some code := by
  simp [httpError, ResponseWriter.Write, ResponseWriter.WriteHeader, h]

theorem httpError_body (env : Env) (w : ResponseWriter) (error : GoString) (code : Nat) :
    (httpError env w error code).body = w.body ++ error ++ ['\n'] := by
  simp only [httpError, ResponseWriter.Write, ResponseWriter.WriteHeader]
  split <;> simp

theorem IsValidURL_iff (env : Env) (t : GoString) :
    IsValidURL env t = true ↔ ∃ u, env.urlParse t = some u ∧ '.' ∈ u.Host := by
  unfold IsValidURL
  cases hp : env.urlParse t with
  | none => simp
  | some u => simpa using Contains_single_iff '.' u.Host

/-- The run of lines 110–137 on a target that passes validation, for a valid method and inbound
headers that each carry a value: the outbound request is built with the copied headers and
executed. -/
theorem forward_executes (env : Env) (wr : ResponseWriter) (r : Request) (t : GoString)
    (hvalid : IsValidURL env t = true)
    (hmethod : env.validMethod (if r.Method = [] then "GET".toList else r.Method) = true)
    (hne : ∀ e ∈ r.Header, e.2 ≠ []) :
    ∃ req : OutRequest,
      req = { Method := if r.Method = [] then "GET".toList else r.Method, URL := t,
              Header := (copyFirstValues env.canonicalKey r.Header []).1, Body := r.Body } ∧
      forward env wr r t =
        (match env.clientDo req with
          | Except.error err =>
            ⟨httpError env wr err 500,
              [Call.logPrintf r.Method t, Call.newRequest r.Method t, Call.clientDo (some req),
                Call.closeRequestBody], Exit.returned⟩
          | Except.ok resp =>
            match copyFirstValues env.canonicalKey resp.Header wr.header with
            | (header, false) =>
              ⟨{ wr with header := header },
                [Call.logPrintf r.Method t, Call.newRequest r.Method t,
                  Call.clientDo (some req), Call.closeRequestBody], Exit.panicked⟩
            | (header, true) =>
              ⟨({ wr with header := header }.WriteHeader resp.StatusCode).Write resp.Body,
                [Call.logPrintf r.Method t, Call.newRequest r.Method t,
                  Call.clientDo (some req), Call.printHTTP, Call.closeResponseBody,
                  Call.closeRequestBody], Exit.returned⟩) := by
  refine ⟨_, rfl, ?_⟩
  obtain ⟨u, hu, -⟩ := (IsValidURL_iff env t).mp hvalid
  have hnew : NewRequest env r.Method t r.Body =
      some { Method := if r.Method = [] then "GET".toList else r.Method, URL := t,
             Header := [], Body := r.Body } := by
    simp only [NewRequest, hmethod, hu]
    rfl
  have hcopy : copyFirstValues env.canonicalKey r.Header [] =
      ((copyFirstValues env.canonicalKey r.Header []).1, true) :=
    Prod.ext rfl (copyFirstValues_completes _ _ _ hne)
  unfold forward
  simp only [hvalid, hnew]
  rw [hcopy]
  simp only [Bool.not_true, Bool.false_eq_true, if_false]
  cases env.clientDo _ with
  | error err => simp
  | ok resp =>
    simp only
    rcases hc : copyFirstValues env.canonicalKey resp.Header wr.header with ⟨h1, b⟩
    cases b <;> simp

/-! ## The claims -/

/-- C1, evaluated where it fails.  With the mapping `api → backend.internal:8080`, the request
`GET /api/api` has the mapped prefix `api` and the non-empty suffix `api`, so the claim promises
the target `http://backend.internal:8080/api`.  The handler instead takes the branch of lines
99–102, because the comparison of line 99 reads `requestedURL` after line 96 has stripped the
prefix from it; no target reaches validation, and the nil `err` of line 100 makes the run end in
a panic with nothing written and no call made. -/
theorem C1_suffix_equal_to_prefix_unforwarded :
    NormalizeURL ("backend.internal:8080".toList ++ ['/'] ++ "api".toList) =
        "http://backend.internal:8080/api".toList ∧
      requestedTarget (sampleEnv [("api".toList, "backend.internal:8080".toList)])
        (getRequest "/api/api") = none ∧
      NewProxy.ServeHTTP (sampleEnv [("api".toList, "backend.internal:8080".toList)])
        freshWriter (getRequest "/api/api") = ⟨freshWriter, [], Exit.panicked⟩ := by
  decide

/-- C2, evaluated where it fails.  With the mapping `api → backend.internal`, the request
`GET /api` reaches line 100, where `err` is still nil: the run ends in a panic, the response
writer is untouched (no status, no header, no body), and so no 404 is written. -/
theorem C2_bare_prefix_panics :
    NewProxy.ServeHTTP (sampleEnv [("api".toList, "backend.internal".toList)])
        freshWriter (getRequest "/api") = ⟨freshWriter, [], Exit.panicked⟩ ∧
      (NewProxy.ServeHTTP (sampleEnv [("api".toList, "backend.internal".toList)])
        freshWriter (getRequest "/api")).wr.status = none := by
  decide

/-- C3.  For a mapping table that maps the prefix `k` (without `/`) to a host, the handler makes
no call on any collaborator for a request whose URL string is `/k`: no `http.NewRequest`, no
`client.Do`, whatever the method, the headers, the body and the path field. -/
theorem C3_bare_prefix_never_forwards (p : Proxy) (env : Env) (wr : ResponseWriter)
    (r : Request) (k host : GoString) (hk : '/' ∉ k)
    (hmap : (GetPathMapping env).lookup k = some host) (hurl : r.URL.String = '/' :: k) :
    (p.ServeHTTP env wr r).calls = [] := by
  unfold Proxy.ServeHTTP
  by_cases hp : r.URL.Path = ['/']
  · simp [hp]
  · simp [hp, requestedTarget_bare env r k host hk hmap hurl]

theorem C3_bare_prefix_never_forwards_witness :
    (NewProxy.ServeHTTP (sampleEnv [("api".toList, "backend.internal".toList)]) freshWriter
      (getRequest "/api")).calls = [] :=
  C3_bare_prefix_never_forwards NewProxy
    (sampleEnv [("api".toList, "backend.internal".toList)]) freshWriter (getRequest "/api")
    "api".toList "backend.internal".toList (by decide) (by decide) (by decide)

/-- C4.  When the routing prefix of the request string (the URL string without its leading `/`)
is not a key of the mapping table, in particular when the table has no entry, the target that
reaches validation is `NormalizeURL` of the unchanged request string; and unless the path is
exactly `/`, the handler continues with validation and forwarding of that target. -/
theorem C4_unmapped_prefix_passes_through (p : Proxy) (env : Env) (wr : ResponseWriter)
    (r : Request)
    (hmap : GetPathMapping env = [] ∨
      (GetPathMapping env).lookup
        (GetURLPathPrefix (strings.TrimPrefix r.URL.String ['/'])) = none) :
    requestedTarget env r = some (NormalizeURL (strings.TrimPrefix r.URL.String ['/'])) ∧
      (r.URL.Path ≠ ['/'] →
        p.ServeHTTP env wr r =
          forward env wr r (NormalizeURL (strings.TrimPrefix r.URL.String ['/']))) := by
  have hlook : (GetPathMapping env).lookup
      (GetURLPathPrefix (strings.TrimPrefix r.URL.String ['/'])) = none := by
    rcases hmap with h | h
    · rw [h]; rfl
    · exact h
  have htarget : requestedTarget env r =
      some (NormalizeURL (strings.TrimPrefix r.URL.String ['/'])) := by
    simp only [requestedTarget, hlook]
  refine ⟨htarget, fun hp => ?_⟩
  simp [Proxy.ServeHTTP, hp, htarget]

theorem C4_unmapped_prefix_passes_through_witness :
    requestedTarget (sampleEnv []) (getRequest "/example.com/resource") =
        some "http://example.com/resource".toList ∧
      (NewProxy.ServeHTTP (sampleEnv []) freshWriter (getRequest "/example.com/resource")).calls
        = [Call.logPrintf "GET".toList "http://example.com/resource".toList,
           Call.newRequest "GET".toList "http://example.com/resource".toList,
           Call.clientDo
             (some (OutRequest.mk "GET".toList "http://example.com/resource".toList [] [])),
           Call.printHTTP, Call.closeResponseBody, Call.closeRequestBody] := by
  have h := C4_unmapped_prefix_passes_through NewProxy (sampleEnv []) freshWriter
    (getRequest "/example.com/resource") (Or.inl rfl)
  refine ⟨h.1.trans (by decide), ?_⟩
  rw [h.2 (by decide)]
  decide

/-- C5.  Every call the handler makes on a collaborator (`http.NewRequest` and `client.Do` among
them) happens only when the normalized target passed validation: it parses and its parsed host
contains a `.`, hence is not empty.  A target that fails to parse, or whose parsed host is empty
or has no `.`, is rejected by `IsValidURL`; and when such a target reaches validation the handler
writes `Invalid URL` with status 404 and makes no call at all. -/
theorem C5_forward_only_valid_targets (p : Proxy) (env : Env) (wr : ResponseWriter)
    (r : Request) :
    (∀ c ∈ (p.ServeHTTP env wr r).calls,
        ∃ t u, requestedTarget env r = some t ∧ IsValidURL env t = true ∧
          env.urlParse t = some u ∧ '.' ∈ u.Host ∧ u.Host ≠ []) ∧
      (∀ t, (env.urlParse t = none ∨
          ∃ u, env.urlParse t = some u ∧ (u.Host = [] ∨ '.' ∉ u.Host)) →
        IsValidURL env t = false) ∧
      (∀ t, r.URL.Path ≠ ['/'] → requestedTarget env r = some t → IsValidURL env t = false →
        p.ServeHTTP env wr r = ⟨httpError env wr "Invalid URL".toList 404, [], Exit.returned⟩ ∧
          (p.ServeHTTP env wr r).wr.body = wr.body ++ "Invalid URL".toList ++ ['\n'] ∧
          (wr.status = none → (p.ServeHTTP env wr r).wr.status = some 404)) := by
  refine ⟨fun c hc => ?_, fun t ht => ?_, fun t hp htarget hv => ?_⟩
  · have hne : (p.ServeHTTP env wr r).calls ≠ [] := List.ne_nil_of_mem hc
    obtain ⟨-, t, htarget, hvalid, -⟩ := calls_only_after_validation p env wr r hne
    obtain ⟨u, hu, hdot⟩ := (IsValidURL_iff env t).mp hvalid
    exact ⟨t, u, htarget, hvalid, hu, hdot, List.ne_nil_of_mem hdot⟩
  · cases hv : IsValidURL env t with
    | false => rfl
    | true =>
      obtain ⟨u, hu, hdot⟩ := (IsValidURL_iff env t).mp hv
      rcases ht with hnone | ⟨u0, hu0, hbad⟩
      · rw [hnone] at hu
        exact absurd hu (by simp)
      · rw [hu0] at hu
        have hu1 : u0 = u := Option.some.inj hu
        subst hu1
        rcases hbad with hempty | hnodot
        · rw [hempty] at hdot
          exact absurd hdot (by simp)
        · exact absurd hdot hnodot
  · have hrun : p.ServeHTTP env wr r =
        ⟨httpError env wr "Invalid URL".toList 404, [], Exit.returned⟩ := by
      simp [Proxy.ServeHTTP, hp, htarget, forward, hv]
    rw [hrun]
    exact ⟨rfl, httpError_body env wr _ 404, fun hs => httpError_status env wr _ 404 hs⟩

theorem C5_forward_only_valid_targets_witness :
    IsValidURL (sampleEnv [("svc".toList, "nohost".toList)]) "http://localhost".toList = false ∧
      requestedTarget (sampleEnv [("svc".toList, "nohost".toList)]) (getRequest "/svc/x") =
        some "http://nohost/x".toList ∧
      (NewProxy.ServeHTTP (sampleEnv [("svc".toList, "nohost".toList)]) freshWriter
        (getRequest "/svc/x")).wr.status = some 404 ∧
      (NewProxy.ServeHTTP (sampleEnv [("svc".toList, "nohost".toList)]) freshWriter
        (getRequest "/svc/x")).calls = [] := by
  have h := C5_forward_only_valid_targets NewProxy
    (sampleEnv [("svc".toList, "nohost".toList)]) freshWriter (getRequest "/svc/x")
  have h1 := h.2.1 "http://localhost".toList
    (Or.inr ⟨URL.mk [] "localhost".toList "http://localhost".toList,
      by decide, Or.inr (by decide)⟩)
  have h2 := h.2.2 "http://nohost/x".toList (by decide) (by decide) (by decide)
  refine ⟨h1, by decide, h2.2.2 rfl, ?_⟩
  rw [h2.1]

/-- C6.  A request whose path is exactly `/` makes the handler return at once: the response
writer is left as it was (no status, no header, no body is written) and no call is made,
whatever the method, the headers, the body, the query and the mapping table. -/
theorem C6_root_path_is_inert (p : Proxy) (env : Env) (wr : ResponseWriter) (r : Request)
    (hpath : r.URL.Path = ['/']) :
    p.ServeHTTP env wr r = ⟨wr, [], Exit.returned⟩ := by
  simp [Proxy.ServeHTTP, hpath]

theorem C6_root_path_is_inert_witness :
    NewProxy.ServeHTTP (sampleEnv [("api".toList, "backend.internal".toList)]) freshWriter
      (getRequest "/") = ⟨freshWriter, [], Exit.returned⟩ :=
  C6_root_path_is_inert NewProxy (sampleEnv [("api".toList, "backend.internal".toList)])
    freshWriter (getRequest "/") (by decide)

/-- C7.  `GetURLPathPrefix p` is `p` itself when `p` has no `/`; it is the text before the first
`/` otherwise; and it never contains `/`. -/
theorem C7_GetURLPathPrefix_first_segment (p : GoString) :
    ('/' ∉ p → GetURLPathPrefix p = p) ∧
      (∀ pre rest, p = pre ++ '/' :: rest → '/' ∉ pre → GetURLPathPrefix p = pre) ∧
      '/' ∉ GetURLPathPrefix p := by
  refine ⟨fun h => ?_, fun pre rest hp hpre => ?_, ?_⟩
  · rw [GetURLPathPrefix_eq_takeWhile, takeWhile_ne_of_not_mem '/' p h]
  · rw [GetURLPathPrefix_eq_takeWhile, hp, takeWhile_ne_append '/' pre rest hpre]
  · rw [GetURLPathPrefix_eq_takeWhile]
    exact not_mem_takeWhile_ne '/' p

theorem C7_GetURLPathPrefix_first_segment_witness :
    GetURLPathPrefix "example.com".toList = "example.com".toList ∧
      GetURLPathPrefix "api/users/1".toList = "api".toList :=
  ⟨(C7_GetURLPathPrefix_first_segment "example.com".toList).1 (by decide),
    (C7_GetURLPathPrefix_first_segment "api/users/1".toList).2.1 "api".toList
      "users/1".toList (by decide) (by decide)⟩

/-- C8.  `NormalizeURL` is idempotent, and it returns unchanged every string that contains
`http`, in particular every string that contains `http://`. -/
theorem C8_NormalizeURL_idempotent (x : GoString) :
    NormalizeURL (NormalizeURL x) = NormalizeURL x ∧
      ("http".toList <:+: x → NormalizeURL x = x) ∧
      ("http://".toList <:+: x → NormalizeURL x = x) := by
  refine ⟨?_, fun h => ?_, fun h => ?_⟩
  · cases hc : strings.Contains x "http".toList with
    | true => rw [NormalizeURL_of_Contains x hc, NormalizeURL_of_Contains x hc]
    | false =>
      rw [NormalizeURL_of_not_Contains x hc]
      exact NormalizeURL_of_Contains _ (Contains_http_scheme x)
  · exact NormalizeURL_of_Contains x ((Contains_iff_isInfix x _).mpr h)
  · obtain ⟨a, b, hab⟩ := h
    exact NormalizeURL_of_Contains x
      ((Contains_iff_isInfix x _).mpr ⟨a, "://".toList ++ b, by rw [← hab]; simp⟩)

theorem C8_NormalizeURL_idempotent_witness :
    NormalizeURL "https://example.com/a".toList = "https://example.com/a".toList :=
  (C8_NormalizeURL_idempotent "https://example.com/a".toList).2.1
    ⟨[], "s://example.com/a".toList, by decide⟩

/-- C9.  Let the handler reach the forwarding stage (the path is not `/`, a target reaches
validation and passes it, the method is valid), and let the inbound header map have canonical
names, each with at least one value, as the Go server delivers it.  Then the request handed to
`client.Do` carries for every inbound header name exactly one value, the first one listed
inbound, and no other name.  When the backend answers with such a header map, the header map of
the response writer holds for every name of the backend's response exactly one value, the first
one listed there, and is unchanged at every other name. -/
theorem C9_first_header_value_only (p : Proxy) (env : Env) (wr : ResponseWriter) (r : Request)
    (t : GoString) (hpath : r.URL.Path ≠ ['/']) (htarget : requestedTarget env r = some t)
    (hvalid : IsValidURL env t = true)
    (hmethod : env.validMethod (if r.Method = [] then "GET".toList else r.Method) = true)
    (hkeys : (r.Header.map Prod.fst).Nodup)
    (hcanon : ∀ e ∈ r.Header, env.canonicalKey e.1 = e.1)
    (hne : ∀ e ∈ r.Header, e.2 ≠ []) :
    ∃ req : OutRequest,
      Call.clientDo (some req) ∈ (p.ServeHTTP env wr r).calls ∧
      req.URL = t ∧ req.Body = r.Body ∧
      (∀ name v vs, (name, v :: vs) ∈ r.Header → req.Header.lookup name = some [v]) ∧
      (∀ name, name ∉ r.Header.map Prod.fst → req.Header.lookup name = none) ∧
      (∀ resp, env.clientDo req = Except.ok resp →
        (resp.Header.map Prod.fst).Nodup →
        (∀ e ∈ resp.Header, env.canonicalKey e.1 = e.1) →
        (∀ e ∈ resp.Header, e.2 ≠ []) →
        (∀ name v vs, (name, v :: vs) ∈ resp.Header →
            (p.ServeHTTP env wr r).wr.header.lookup name = some [v]) ∧
          (∀ name, name ∉ resp.Header.map Prod.fst →
            (p.ServeHTTP env wr r).wr.header.lookup name = wr.header.lookup name)) := by
  have hserve : p.ServeHTTP env wr r = forward env wr r t := by
    simp [Proxy.ServeHTTP, hpath, htarget]
  obtain ⟨req, hreq, hrun⟩ := forward_executes env wr r t hvalid hmethod hne
  rw [hserve, hrun]
  have hother : ∀ (src dst : Header) (name : GoString),
      (∀ e ∈ src, env.canonicalKey e.1 = e.1) → name ∉ src.map Prod.fst →
      (copyFirstValues env.canonicalKey src dst).1.lookup name = dst.lookup name := by
    intro src dst name hc hn
    apply copyFirstValues_other
    intro e he heq
    rw [hc e he] at heq
    exact hn (List.mem_map.mpr ⟨e, he, heq⟩)
  refine ⟨req, ?_, by rw [hreq], by rw [hreq], ?_, ?_, ?_⟩
  · cases env.clientDo req with
    | error err => simp
    | ok resp =>
      simp only
      rcases copyFirstValues env.canonicalKey resp.Header wr.header with ⟨h1, b⟩
      cases b <;> simp
  · intro name v vs hmem
    rw [hreq]
    exact copyFirstValues_first env.canonicalKey r.Header [] hkeys hcanon hne name v vs hmem
  · intro name hname
    rw [hreq]
    exact hother r.Header [] name hcanon hname
  · intro resp hdo hrkeys hrcanon hrne
    have hcopy : copyFirstValues env.canonicalKey resp.Header wr.header =
        ((copyFirstValues env.canonicalKey resp.Header wr.header).1, true) :=
      Prod.ext rfl (copyFirstValues_completes _ _ _ hrne)
    rw [hdo]
    simp only
    rw [hcopy]
    simp only [Write_header, WriteHeader_header]
    refine ⟨?_, ?_⟩
    · intro name v vs hmem
      exact copyFirstValues_first env.canonicalKey resp.Header wr.header hrkeys hrcanon hrne
        name v vs hmem
    · intro name hname
      exact hother resp.Header wr.header name hrcanon hname

theorem C9_first_header_value_only_witness :
    ∃ req : OutRequest,
      Call.clientDo (some req) ∈
        (NewProxy.ServeHTTP
          (sampleEnvWith [("api".toList, "backend.internal:8080".toList)] sampleResponse)
          freshWriter sampleRequest).calls ∧
      req.URL = "http://backend.internal:8080/users/1".toList ∧
      req.Header.lookup "Accept".toList = some ["text/html".toList] ∧
      (NewProxy.ServeHTTP
        (sampleEnvWith [("api".toList, "backend.internal:8080".toList)] sampleResponse)
        freshWriter sampleRequest).wr.header.lookup "Set-Cookie".toList
          = some ["a=1".toList] := by
  obtain ⟨req, hdo, hurl, -, hfirst, -, hresp⟩ :=
    C9_first_header_value_only NewProxy
      (sampleEnvWith [("api".toList, "backend.internal:8080".toList)] sampleResponse)
      freshWriter sampleRequest "http://backend.internal:8080/users/1".toList
      (by decide) (by decide) (by decide) (by decide) (by decide) (by decide) (by decide)
  exact ⟨req, hdo, hurl, hfirst "Accept".toList "text/html".toList ["text/plain".toList]
      (by decide),
    (hresp sampleResponse rfl (by decide) (by decide) (by decide)).1 "Set-Cookie".toList
      "a=1".toList ["b=2".toList] (by decide)⟩

/-- C10.  Let `k` (without `/`) be mapped to `host`, let the suffix `s` differ from `k`, and let
`host` or `s` contain `http`.  For the request `/k/s` the target that reaches validation is
exactly `host/s`: `NormalizeURL` prepends no `http://` to it, and unless the path is exactly `/`
the handler continues with validation and forwarding of `host/s` as it stands. -/
theorem C10_no_scheme_when_http_occurs (p : Proxy) (env : Env) (wr : ResponseWriter)
    (r : Request) (k host s : GoString) (hk : '/' ∉ k)
    (hmap : (GetPathMapping env).lookup k = some host) (hs : s ≠ k)
    (hurl : r.URL.String = '/' :: (k ++ '/' :: s))
    (hhttp : "http".toList <:+: host ∨ "http".toList <:+: s) :
    requestedTarget env r = some (host ++ ['/'] ++ s) ∧
      requestedTarget env r ≠ some ("http://".toList ++ (host ++ ['/'] ++ s)) ∧
      (r.URL.Path ≠ ['/'] → p.ServeHTTP env wr r = forward env wr r (host ++ ['/'] ++ s)) := by
  have hinfix : "http".toList <:+: host ++ ['/'] ++ s := by
    rcases hhttp with ⟨a, b, hab⟩ | ⟨a, b, hab⟩
    · exact ⟨a, b ++ ['/'] ++ s, by rw [← hab]; simp⟩
    · exact ⟨host ++ ['/'] ++ a, b, by rw [← hab]; simp⟩
  have hnorm : NormalizeURL (host ++ ['/'] ++ s) = host ++ ['/'] ++ s :=
    NormalizeURL_of_Contains _ ((Contains_iff_isInfix _ _).mpr hinfix)
  have htarget : requestedTarget env r = some (host ++ ['/'] ++ s) := by
    rw [requestedTarget_mapped env r k host s hk hmap hurl, if_neg (Ne.symm hs), hnorm]
  refine ⟨htarget, ?_, fun hp => ?_⟩
  · rw [htarget]
    intro h
    have hlen := congrArg List.length (Option.some.inj h)
    simp at hlen
    omega
  · simp [Proxy.ServeHTTP, hp, htarget]

theorem C10_no_scheme_when_http_occurs_witness :
    requestedTarget (sampleEnv [("bin".toList, "httpbin.org".toList)]) (getRequest "/bin/get") =
        some "httpbin.org/get".toList ∧
      NewProxy.ServeHTTP (sampleEnv [("bin".toList, "httpbin.org".toList)]) freshWriter
        (getRequest "/bin/get") =
        forward (sampleEnv [("bin".toList, "httpbin.org".toList)]) freshWriter
          (getRequest "/bin/get") "httpbin.org/get".toList := by
  have h := C10_no_scheme_when_http_occurs NewProxy
    (sampleEnv [("bin".toList, "httpbin.org".toList)]) freshWriter (getRequest "/bin/get")
    "bin".toList "httpbin.org".toList "get".toList (by decide) (by decide) (by decide)
    (by decide) (Or.inl ⟨[], "bin.org".toList, by decide⟩)
  exact ⟨h.1, h.2.2 (by decide)⟩

end GoHttpProxy
